import Mathlib

set_option maxHeartbeats 1000000

namespace PathJS

/-- Characters of a JavaScript string: paths are modelled as lists of characters. -/
abbrev Str := List Char

/-- Model of node:path posix isAbsolute: nonempty and starting with a separator. -/
def isAbsolute (p : Str) : Bool := p.head? = some '/'

/-- Split a character string on separators, keeping empty components, as
JavaScript string splitting does. `cur` is the component read so far. -/
def splitSlashCore : Str → Str → List Str
  | [], cur => [cur]
  | c :: rest, cur =>
    if c = '/' then cur :: splitSlashCore rest [] else splitSlashCore rest (cur ++ [c])

def splitSlash (p : Str) : List Str := splitSlashCore p []

/-- Join components with separators (left inverse of splitSlash on slash-free components). -/
def joinSlash : List Str → Str
  | [] => []
  | [s] => s
  | s :: t :: rest => s ++ '/' :: joinSlash (t :: rest)

/-- One step of the normalizeString loop of node:path: resolves single-dot and
double-dot segments and drops empty ones. `acc` holds the output segments in
reverse order. -/
def normStep (allowAboveRoot : Bool) (acc : List Str) (seg : Str) : List Str :=
  if seg = [] then acc
  else if seg = ['.'] then acc
  else if seg = ['.', '.'] then
    match acc with
    | [] => if allowAboveRoot then [seg] else []
    | a :: rest => if a = ['.', '.'] then (if allowAboveRoot then seg :: a :: rest else a :: rest) else rest
  else seg :: acc

/-- node:path normalizeString on a pre-split path: resolves dot segments and
collapses duplicate separators. -/
def normalizeSegs (allowAboveRoot : Bool) (segs : List Str) : List Str :=
  (segs.foldl (normStep allowAboveRoot) []).reverse

/-- One step of the right-to-left accumulation loop of node:path posix resolve:
prepend fragments (and finally the working directory) until an absolute one is
found. The state is the raw concatenation and whether it is absolute already. -/
def resolveRawStep (st : Str × Bool) (p : Str) : Str × Bool :=
  if st.2 then st
  else if p = [] then st
  else (p ++ '/' :: st.1, isAbsolute p)

def resolveRaw (cwd : Str) (paths : List Str) : Str × Bool :=
  (paths.reverse ++ [cwd]).foldl resolveRawStep ([], false)

/-- Model of node:path posix resolve, with the process working directory passed
explicitly. -/
def resolve (cwd : Str) (paths : List Str) : Str :=
  let st := resolveRaw cwd paths
  let s := joinSlash (normalizeSegs (!st.2) (splitSlash st.1))
  if st.2 then '/' :: s
  else if s = [] then ['.'] else s

def dropTrailingEmpties (l : List Str) : List Str :=
  (l.reverse.dropWhile (fun s => s.isEmpty)).reverse

/-- Model of node:path posix dirname, computed on separator-split components:
trailing separators are ignored, the final component is dropped, and the
leading-root special cases (result '/' or '//') match the character-level
original. -/
def dirname (p : Str) : Str :=
  let pre := (dropTrailingEmpties (splitSlash p)).dropLast
  if pre = [] then (if isAbsolute p then ['/'] else ['.'])
  else if pre = [[]] then ['/']
  else if pre = [[], []] then ['/', '/']
  else joinSlash pre

/-- Model of node:path posix basename without a suffix argument: the final
nonempty component, ignoring trailing separators. -/
def basenameOf (p : Str) : Str := (dropTrailingEmpties (splitSlash p)).getLastD []

/-- Index of the last dot in a component, if any. -/
def lastDotIdx : Str → Option Nat
  | [] => none
  | c :: rest =>
    match lastDotIdx rest with
    | some d => some (d + 1)
    | none => if c = '.' then some 0 else none

/-- node:path posix extname restricted to a single component: empty when the
component has no dot, when its only dot leads the component (hidden file), or
when the component is exactly the double-dot segment. -/
def extOfSeg (s : Str) : Str :=
  if s = ['.', '.'] then []
  else
    match lastDotIdx s with
    | none => []
    | some 0 => []
    | some d => s.drop d

def extname (p : Str) : Str := extOfSeg (basenameOf p)

/-- Model of node:path posix basename with a (slash-free) suffix argument:
strips the suffix from the basename unless the stripped result would be empty;
an exact match of the whole path yields the empty string. -/
def basenameSuf (p : Str) (ext : Str) : Str :=
  if ext = [] then basenameOf p
  else if ext = p then []
  else
    let b := basenameOf p
    if b = ext then b
    else if ext.isSuffixOf b then b.take (b.length - ext.length)
    else b

/-- Model of node:path posix normalize. -/
def normalizePath (p : Str) : Str :=
  if p = [] then ['.']
  else
    let s := joinSlash (normalizeSegs (!isAbsolute p) (splitSlash p))
    if s = [] then
      (if isAbsolute p then ['/'] else if p.getLast? = some '/' then ['.', '/'] else ['.'])
    else
      let s' := if p.getLast? = some '/' then s ++ ['/'] else s
      if isAbsolute p then '/' :: s' else s'

/-- Model of node:path posix join: concatenate the nonempty parts with
separators, then normalize. -/
def join (parts : List Str) : Str :=
  let ne := parts.filter (fun s => !s.isEmpty)
  if ne = [] then ['.'] else normalizePath (joinSlash ne)

/-- The PathJSError family of src/errors.ts: a single error type distinguished
by message. Each constructor corresponds to one throw site message shape and
carries the path (and operator name) the message embeds. -/
inductive PathJSError
  /-- message: two or more Path classes cannot be used as constructor arguments -/
  | twoHandles
  /-- "The given Path class argument is not the first argument." -/
  | handleNotFirst
  /-- checkExistence: provided path does not exist to perform the operation -/
  | notFound (path : Str) (operator : Str)
  /-- checkAsFile: provided path is not a file to perform a file operation -/
  | notFile (path : Str) (operator : Str)
  /-- checkAsDirectory: provided path is not a directory -/
  | notDirectory (path : Str) (operator : Str)
  /-- "is not a file/directory to execute Path.X() operation" guards built on
  the lenient classifier -/
  | wrongTypeOp (path : Str) (operator : Str)
  /-- "already exists. Please, choose another file name." -/
  | alreadyExists (path : Str)
  /-- parse failure wrapping an underlying decoder message -/
  | parseError (msg : Str)
deriving DecidableEq, Repr

/-- Underlying system error codes of node:fs calls that the library does not
wrap (unrecovered passthrough). -/
inductive SysErr
  | enoent
  | eperm
  | eisdir
deriving DecidableEq, Repr

/-- An error surfaced to the caller: either a PathJSError thrown by the library
itself, or an unrecovered system error propagated from node:fs. -/
inductive Err
  | pathJS (e : PathJSError)
  | sys (code : SysErr)
deriving DecidableEq, Repr

/-- InvalidArgument class of the spec taxonomy (malformed constructor
argument list). -/
def Err.isInvalidArgument : Err → Bool
  | .pathJS .twoHandles => true
  | .pathJS .handleNotFirst => true
  | _ => false

/-- NotFound class of the spec taxonomy. -/
def Err.isNotFound : Err → Bool
  | .pathJS (.notFound _ _) => true
  | _ => false

/-- WrongType class of the spec taxonomy (path exists but is the wrong kind,
or a lenient-classification guard rejected the receiver). -/
def Err.isWrongType : Err → Bool
  | .pathJS (.notFile _ _) => true
  | .pathJS (.notDirectory _ _) => true
  | .pathJS (.wrongTypeOp _ _) => true
  | _ => false

/-- AlreadyExists class of the spec taxonomy. -/
def Err.isAlreadyExists : Err → Bool
  | .pathJS (.alreadyExists _) => true
  | _ => false

/-- Whether the error is a PathJSError at all (as opposed to a passthrough
system error). -/
def Err.isPathJSErr : Err → Bool
  | .pathJS _ => true
  | .sys _ => false

/-- Kind of a filesystem entry as reported by a non-following lstat: regular
file, directory, symbolic link (reported as itself, never followed), or any
other special entry. -/
inductive EntryKind
  | file
  | directory
  | symlink
  | other
deriving DecidableEq, Repr

/-- A filesystem entry: its own kind plus (for files) its byte content. -/
structure Entry where
  kind : EntryKind
  data : List Nat
deriving DecidableEq, Repr

/-- The filesystem collaborator: a map from (character-list) paths to entries,
plus a set of paths on which stat fails (e.g. for permission reasons) even
though the entry may exist. -/
structure FS where
  entries : Str → Option Entry
  statFail : Str → Bool

/-- node:fs existsSync: true when the path resolves to an entry; swallows
errors into false. -/
def FS.existsSync (fs : FS) (p : Str) : Bool := (fs.entries p).isSome

/-- node:fs lstatSync: fails with a system error when stat fails or the entry
is absent; otherwise reports the entry itself (symbolic links are not
followed). -/
def FS.lstat (fs : FS) (p : Str) : Except Err Entry :=
  if fs.statFail p then .error (.sys .eperm)
  else
    match fs.entries p with
    | none => .error (.sys .enoent)
    | some e => .ok e

/-- node:fs readFile on a path: the file bytes, a system error if absent or
not a regular file. -/
def FS.readFile (fs : FS) (p : Str) : Except Err (List Nat) :=
  match fs.entries p with
  | none => .error (.sys .enoent)
  | some e => if e.kind = EntryKind.file then .ok e.data else .error (.sys .eisdir)

/-- node:fs/promises open on a path (read mode). The file handle is modelled
by the entry it gives access to. -/
def FS.openHandle (fs : FS) (p : Str) : Except Err Entry :=
  match fs.entries p with
  | none => .error (.sys .enoent)
  | some e => .ok e

/-- Effect of node:fs writeFile: create or replace the entry with a regular
file holding the given bytes. -/
def FS.writeEntry (fs : FS) (p : Str) (data : List Nat) : FS :=
  { entries := fun q => if q = p then some ⟨EntryKind.file, data⟩ else fs.entries q
    statFail := fs.statFail }

/-- Effect of node:fs unlink: remove the entry. -/
def FS.unlink (fs : FS) (p : Str) : FS :=
  { entries := fun q => if q = p then none else fs.entries q
    statFail := fs.statFail }

/-- Effect of node:fs rename: the destination takes the source entry, the
source disappears. -/
def FS.rename (fs : FS) (src dst : Str) : FS :=
  { entries := fun q => if q = dst then fs.entries src else if q = src then none else fs.entries q
    statFail := fs.statFail }

/-- The two classification results: there is no third category. -/
inductive PathTypeValues
  | file
  | directory
deriving DecidableEq, Repr

/-- The Path handle: the resolved path plus the four derived fields, all
immutable after construction (src/index.ts, class Path). -/
structure Path where
  path : Str
  root : Str
  fullname : Str
  name : Str
  ext : Str
deriving DecidableEq, Repr

/-- A constructor fragment: either an existing Path handle or a raw string
(the `Path | string` union parameter of the constructor). -/
inductive Frag
  | handle (p : Path)
  | str (s : Str)

def Frag.isHandle : Frag → Bool
  | .handle _ => true
  | .str _ => false

/-- The validation/collection loop of the constructor (src/index.ts lines
114-131): walks the fragments tracking whether a handle fragment was already
seen (`hasPathClass`) and the running index (`pathIndex`), substituting each
handle fragment by its own path string. -/
def collectPaths : List Frag → Bool → Nat → Except Err (List Str)
  | [], _, _ => .ok []
  | .handle h :: rest, hasPathClass, pathIndex =>
    if hasPathClass then .error (.pathJS .twoHandles)
    else if pathIndex ≠ 0 then .error (.pathJS .handleNotFirst)
    else
      match collectPaths rest true (pathIndex + 1) with
      | .error e => .error e
      | .ok l => .ok (h.path :: l)
  | .str s :: rest, hasPathClass, pathIndex =>
    match collectPaths rest hasPathClass (pathIndex + 1) with
    | .error e => .error e
    | .ok l => .ok (s :: l)

/-- The derived-field computation of the constructor (src/index.ts lines
132-136) from the already-resolved path. -/
def mkPathFields (p : Str) : Path :=
  { path := p
    root := dirname p
    fullname := basenameOf p
    name := basenameSuf p (extname p)
    ext := extname p }

/-- The Path constructor: validate/collect the fragments, resolve them against
the working directory, then derive the fields. -/
def pathConstructor (cwd : Str) (frags : List Frag) : Except Err Path :=
  match collectPaths frags false 0 with
  | .error e => .error e
  | .ok allPaths => .ok (mkPathFields (resolve cwd allPaths))

/-- `new Path(s)` for a single string argument (always succeeds); used
internally by renameFile/copyFile for the destination. -/
def newPath1 (cwd : Str) (s : Str) : Path := mkPathFields (resolve cwd [s])

/-- Path.exists(): existsSync on the instance path. -/
def Path.existsE (fs : FS) (p : Path) : Bool := fs.existsSync p.path

/-- Private Path.checkExistence: throws a NotFound PathJSError when the
instance path does not exist. -/
def Path.checkExistence (fs : FS) (p : Path) (operator : Str) : Except Err Unit :=
  if Path.existsE fs p then .ok () else .error (.pathJS (.notFound p.path operator))

/-- Private Path.checkAsFile: lstat the instance path (propagating its errors
unwrapped) and throw a PathJSError when the entry is not a regular file. -/
def Path.checkAsFile (fs : FS) (p : Path) (operator : Str) : Except Err Unit := do
  let st ← fs.lstat p.path
  if st.kind = EntryKind.file then pure () else .error (.pathJS (.notFile p.path operator))

/-- Private Path.checkAsDirectory. -/
def Path.checkAsDirectory (fs : FS) (p : Path) (operator : Str) : Except Err Unit := do
  let st ← fs.lstat p.path
  if st.kind = EntryKind.directory then pure () else .error (.pathJS (.notDirectory p.path operator))

/-- The body of the try block of Path.type(), which is also the whole body of
Path.strictType(): check existence (operator name type), then classify from
lstat: regular file versus everything else. -/
def Path.typeAttempt (fs : FS) (p : Path) : Except Err PathTypeValues := do
  Path.checkExistence fs p ("type").toList
  let st ← fs.lstat p.path
  pure (if st.kind = EntryKind.file then .file else .directory)

/-- Path.type(): lenient classification. Any failure of the try block is
caught and answered by the extension heuristic: nonempty ext means file,
empty ext means directory. -/
def Path.type (fs : FS) (p : Path) : PathTypeValues :=
  match Path.typeAttempt fs p with
  | .ok t => t
  | .error _ => if p.ext ≠ [] then .file else .directory

/-- Path.strictType(): same checks, but the NotFound error (or any lstat
failure) propagates instead of falling back to the heuristic. -/
def Path.strictType (fs : FS) (p : Path) : Except Err PathTypeValues := do
  Path.checkExistence fs p ("type").toList
  let st ← fs.lstat p.path
  pure (if st.kind = EntryKind.file then .file else .directory)

/-- Path.isFilePath(): defined from the lenient classifier. -/
def Path.isFilePath (fs : FS) (p : Path) : Bool := Path.type fs p = PathTypeValues.file

/-- Path.isDirPath(): defined from the lenient classifier. -/
def Path.isDirPath (fs : FS) (p : Path) : Bool := Path.type fs p = PathTypeValues.directory

/-- Path.changeFileExt(): rejects a directory-classified receiver, then builds
root/name.ext with the leading dot of the new extension stripped before the
template concatenation. The operator name in the thrown message is the
source itself (copy-pasted there): changeFileName. -/
def Path.changeFileExt (fs : FS) (cwd : Str) (p : Path) (newFileExt : Str) : Except Err Str :=
  if Path.isDirPath fs p then .error (.pathJS (.wrongTypeOp p.path ("changeFileName").toList))
  else
    .ok (resolve cwd [p.root, p.name ++ '.' :: (match newFileExt with
      | '.' :: rest => rest
      | s => s)])

/-- Path.openFile(): existence and file checks, then open. -/
def Path.openFile (fs : FS) (p : Path) : Except Err Entry := do
  Path.checkExistence fs p ("openFile").toList
  Path.checkAsFile fs p ("openFile").toList
  fs.openHandle p.path

/-- Path.deleteFile(): existence and file checks, then unlink. The state is
returned unchanged when a check fails. -/
def Path.deleteFile (fs : FS) (p : Path) : Except Err Unit × FS :=
  match (do
      Path.checkExistence fs p ("deleteFile").toList
      Path.checkAsFile fs p ("deleteFile").toList : Except Err Unit) with
  | .error e => (.error e, fs)
  | .ok _ => (.ok (), fs.unlink p.path)

/-- Path.checkThenDeleteFile(): rejects a receiver that leniently classifies
as a directory, then deletes the file only when it is present. -/
def Path.checkThenDeleteFile (fs : FS) (p : Path) : Except Err Unit × FS :=
  if Path.isDirPath fs p then
    (.error (.pathJS (.wrongTypeOp p.path ("checkThenDeleteFile").toList)), fs)
  else if Path.existsE fs p then Path.deleteFile fs p
  else (.ok (), fs)

/-- Path.writeFile(): no precondition of its own; deletes an existing target
through deleteFile first, then writes the new content and returns the path. -/
def Path.writeFile (fs : FS) (p : Path) (data : List Nat) : Except Err Str × FS :=
  if Path.existsE fs p then
    match Path.deleteFile fs p with
    | (.error e, fs') => (.error e, fs')
    | (.ok _, fs') => (.ok p.path, fs'.writeEntry p.path data)
  else (.ok p.path, fs.writeEntry p.path data)

/-- The destination handle computed by renameFile/renameFileSync: an absolute
new path is taken as given, a relative one resolves from the directory of
the source; either way a fresh handle is built from the result. -/
def renameDest (cwd : Str) (p : Path) (newPath : Str) : Path :=
  if isAbsolute newPath then newPath1 cwd newPath
  else newPath1 cwd (resolve cwd [dirname p.path, newPath])

/-- Path.renameFile(): existence and file checks on the source, destination
resolution, AlreadyExists guard on the destination, and only then the rename
effect. On any failure the filesystem is returned unchanged. -/
def Path.renameFile (fs : FS) (cwd : Str) (p : Path) (newPath : Str) : Except Err Str × FS :=
  match (do
      Path.checkExistence fs p ("renameFile").toList
      Path.checkAsFile fs p ("renameFile").toList
      let nPath := renameDest cwd p newPath
      if fs.existsSync nPath.path then .error (.pathJS (.alreadyExists nPath.path))
      else pure nPath.path : Except Err Str) with
  | .error e => (.error e, fs)
  | .ok dst => (.ok dst, fs.rename p.path dst)

/-- Zero-filled buffer of the requested length whose head is filled by the
bytes actually read: Buffer.alloc(len) then fileHandle.read(buffer, 0, len,
offset). -/
def bufferRead (data : List Nat) (off len : Nat) : List Nat :=
  let bytes := (data.drop off).take len
  bytes ++ List.replicate (len - bytes.length) 0

/-- Path.readFileOffset(): note the source performs only the checkAsFile
guard, with no preceding checkExistence. With a length: open, read that many
bytes at the offset into a zero-filled buffer, close, return the buffer.
Without a length: read the whole file and return the suffix from the offset. -/
def Path.readFileOffset (fs : FS) (p : Path) (byteOffset : Nat) (byteLength : Option Nat) :
    Except Err (List Nat) := do
  Path.checkAsFile fs p ("readFileOffset").toList
  match byteLength with
  | some len => do
    let fileOpen ← fs.openHandle p.path
    pure (bufferRead fileOpen.data byteOffset len)
  | none => do
    let fileBuffer ← fs.readFile p.path
    pure (fileBuffer.drop byteOffset)

/-- Fixture: an absolute working directory, as process.cwd() would give. -/
def cwdW : Str := ("/w").toList

/-- Fixture: the empty filesystem. -/
def emptyFS : FS := { entries := fun _ => none, statFail := fun _ => false }

/-- Fixture: the handle the constructor builds for "a.txt" from the fixture
working directory (path /w/a.txt, nonempty ext). -/
def pTxt : Path := newPath1 cwdW ("a.txt").toList

/-- Fixture: the handle the constructor builds for "a" (path /w/a, empty ext). -/
def pNoExt : Path := newPath1 cwdW ("a").toList

/-- Fixture: filesystem where /w/a.txt exists but stat fails on it (e.g. for
permission reasons). -/
def permFS : FS :=
  { entries := fun q => if q = pTxt.path then some ⟨EntryKind.file, []⟩ else none
    statFail := fun q => q = pTxt.path }

/-- Fixture: filesystem where /w/a.txt is a symbolic link. -/
def symFS : FS :=
  { entries := fun q => if q = pTxt.path then some ⟨EntryKind.symlink, []⟩ else none
    statFail := fun _ => false }

/-- Fixture: filesystem with regular files /w/a.txt and /w/b.txt. -/
def fileFS : FS :=
  { entries := fun q =>
      if q = ("/w/a.txt").toList then some ⟨EntryKind.file, [10, 20, 30, 40, 50]⟩
      else if q = ("/w/b.txt").toList then some ⟨EntryKind.file, [9]⟩
      else none
    statFail := fun _ => false }

/-- Fixture: filesystem with a directory /d. -/
def dirFS : FS :=
  { entries := fun q => if q = ("/d").toList then some ⟨EntryKind.directory, []⟩ else none
    statFail := fun _ => false }

/-- Fixture: the handle for the directory path /d. -/
def pDir : Path := newPath1 cwdW ("/d").toList

/-- A well-formed output segment of path normalization: nonempty, not a dot
segment, and free of separators. -/
def goodSeg (s : Str) : Prop := s ≠ [] ∧ s ≠ ['.'] ∧ s ≠ ['.', '.'] ∧ '/' ∉ s

/-- Canonical shape of an absolute resolved path: a separator followed by
well-formed segments joined by separators. -/
def canonAbs (p : Str) : Prop :=
  ∃ segs, (∀ s ∈ segs, goodSeg s) ∧ p = '/' :: joinSlash segs

theorem splitSlashCore_nil (cur : Str) : splitSlashCore [] cur = [cur] := rfl

theorem splitSlashCore_cons_slash (rest cur : Str) :
    splitSlashCore ('/' :: rest) cur = cur :: splitSlashCore rest [] := by
  simp [splitSlashCore]

theorem splitSlashCore_cons_ne (c : Char) (rest cur : Str) (hc : ¬c = '/') :
    splitSlashCore (c :: rest) cur = splitSlashCore rest (cur ++ [c]) := by
  simp [splitSlashCore, hc]

theorem splitSlashCore_no_slash (p : Str) :
    ∀ cur, '/' ∉ cur → ∀ t ∈ splitSlashCore p cur, '/' ∉ t := by
  induction p with
  | nil =>
    intro cur h t ht
    rw [splitSlashCore_nil, List.mem_singleton] at ht
    subst ht; exact h
  | cons c rest ih =>
    intro cur h t ht
    by_cases hc : c = '/'
    · subst hc
      rw [splitSlashCore_cons_slash, List.mem_cons] at ht
      rcases ht with h1 | h2
      · subst h1; exact h
      · exact ih [] (by simp) t h2
    · rw [splitSlashCore_cons_ne c rest cur hc] at ht
      refine ih (cur ++ [c]) ?_ t ht
      intro hmem
      rcases List.mem_append.mp hmem with h1 | h1
      · exact h h1
      · exact hc (List.mem_singleton.mp h1).symm

theorem splitSlash_no_slash (p : Str) : ∀ t ∈ splitSlash p, '/' ∉ t :=
  splitSlashCore_no_slash p [] (by simp)

theorem splitSlashCore_slashfree (s : Str) (hs : '/' ∉ s) :
    ∀ cur, splitSlashCore s cur = [cur ++ s] := by
  induction s with
  | nil => intro cur; simp [splitSlashCore]
  | cons c rest ih =>
    intro cur
    have hc : ¬c = '/' := fun h => hs (h ▸ List.mem_cons_self c rest)
    have hr : '/' ∉ rest := fun h => hs (List.mem_cons_of_mem c h)
    rw [splitSlashCore_cons_ne c rest cur hc, ih hr (cur ++ [c])]
    simp

theorem splitSlashCore_append (s r : Str) (hs : '/' ∉ s) :
    ∀ cur, splitSlashCore (s ++ '/' :: r) cur = (cur ++ s) :: splitSlashCore r [] := by
  induction s with
  | nil =>
    intro cur
    rw [List.nil_append, splitSlashCore_cons_slash, List.append_nil]
  | cons c rest ih =>
    intro cur
    have hc : ¬c = '/' := fun h => hs (h ▸ List.mem_cons_self c rest)
    have hr : '/' ∉ rest := fun h => hs (List.mem_cons_of_mem c h)
    rw [List.cons_append, splitSlashCore_cons_ne c _ cur hc, ih hr (cur ++ [c])]
    simp

theorem splitSlash_joinSlash (parts : List Str) (hne : parts ≠ [])
    (hsf : ∀ s ∈ parts, '/' ∉ s) : splitSlash (joinSlash parts) = parts := by
  induction parts with
  | nil => exact absurd rfl hne
  | cons s rest ih =>
    cases rest with
    | nil =>
      show splitSlashCore (joinSlash [s]) [] = [s]
      rw [joinSlash, splitSlashCore_slashfree s (hsf s (by simp)) []]
      simp
    | cons t ts =>
      show splitSlashCore (joinSlash (s :: t :: ts)) [] = s :: t :: ts
      rw [joinSlash, splitSlashCore_append s _ (hsf s (by simp)) []]
      rw [List.nil_append]
      have := ih (by simp) (fun x hx => hsf x (List.mem_cons_of_mem s hx))
      rw [splitSlash] at this
      rw [this]

theorem normStep_empty_seg (allow : Bool) (acc : List Str) : normStep allow acc [] = acc := by
  simp [normStep]

theorem normStep_dot (allow : Bool) (acc : List Str) : normStep allow acc ['.'] = acc := by
  simp [normStep]

theorem normStep_dots_nil_false : normStep false [] ['.', '.'] = [] := by
  simp [normStep]

theorem normStep_dots_cons_false (b : Str) (rest : List Str) :
    normStep false (b :: rest) ['.', '.'] = if b = ['.', '.'] then b :: rest else rest := by
  by_cases hb : b = ['.', '.'] <;> simp [normStep, hb]

theorem normStep_push (allow : Bool) (acc : List Str) (seg : Str) (hs : goodSeg seg) :
    normStep allow acc seg = seg :: acc := by
  rcases hs with ⟨h1, h2, h3, _⟩
  simp [normStep, h1, h2, h3]

theorem normStep_good (acc : List Str) (seg : Str) (hseg : '/' ∉ seg)
    (hacc : ∀ a ∈ acc, goodSeg a) : ∀ a ∈ normStep false acc seg, goodSeg a := by
  intro a ha
  by_cases h1 : seg = []
  · subst h1; rw [normStep_empty_seg] at ha; exact hacc a ha
  · by_cases h2 : seg = ['.']
    · subst h2; rw [normStep_dot] at ha; exact hacc a ha
    · by_cases h3 : seg = ['.', '.']
      · subst h3
        cases acc with
        | nil => rw [normStep_dots_nil_false] at ha; simp at ha
        | cons b rest =>
          rw [normStep_dots_cons_false] at ha
          by_cases hb : b = ['.', '.']
          · rw [if_pos hb] at ha
            exact hacc a ha
          · rw [if_neg hb] at ha
            exact hacc a (List.mem_cons_of_mem b ha)
      · rw [normStep_push false acc seg ⟨h1, h2, h3, hseg⟩] at ha
        rcases List.mem_cons.mp ha with h4 | h4
        · subst h4; exact ⟨h1, h2, h3, hseg⟩
        · exact hacc a h4

theorem foldl_normStep_good (l : List Str) :
    ∀ acc, (∀ s ∈ l, '/' ∉ s) → (∀ a ∈ acc, goodSeg a) →
      ∀ a ∈ l.foldl (normStep false) acc, goodSeg a := by
  induction l with
  | nil => intro acc _ hacc a ha; exact hacc a ha
  | cons s rest ih =>
    intro acc hl hacc a ha
    exact ih (normStep false acc s) (fun x hx => hl x (List.mem_cons_of_mem s hx))
      (normStep_good acc s (hl s (by simp)) hacc) a ha

theorem normalizeSegs_good (l : List Str) (hl : ∀ s ∈ l, '/' ∉ s) :
    ∀ a ∈ normalizeSegs false l, goodSeg a := by
  intro a ha
  rw [normalizeSegs, List.mem_reverse] at ha
  exact foldl_normStep_good l [] hl (by simp) a ha

theorem foldl_normStep_push (l : List Str) (hl : ∀ s ∈ l, goodSeg s) :
    ∀ acc allow, l.foldl (normStep allow) acc = l.reverse ++ acc := by
  induction l with
  | nil => intro acc allow; simp
  | cons s rest ih =>
    intro acc allow
    rw [List.foldl_cons, normStep_push allow acc s (hl s (by simp)),
      ih (fun x hx => hl x (List.mem_cons_of_mem s hx)) (s :: acc) allow]
    simp

theorem normalizeSegs_good_cons_empty (segs : List Str) (h : ∀ s ∈ segs, goodSeg s) :
    normalizeSegs false ([] :: segs) = segs := by
  rw [normalizeSegs, List.foldl_cons, normStep_empty_seg, foldl_normStep_push segs h [] false]
  simp

theorem foldl_resolveRawStep_true (l : List Str) :
    ∀ st : Str × Bool, st.2 = true → l.foldl resolveRawStep st = st := by
  induction l with
  | nil => intro st _; rfl
  | cons p rest ih =>
    intro st h
    rw [List.foldl_cons]
    have : resolveRawStep st p = st := by rw [resolveRawStep, if_pos h]
    rw [this]; exact ih st h

theorem resolveRaw_abs (cwd : Str) (paths : List Str) (hcwd : isAbsolute cwd = true) :
    (resolveRaw cwd paths).2 = true := by
  have hcwdne : ¬cwd = [] := by
    intro h; subst h; simp [isAbsolute] at hcwd
  rw [resolveRaw, List.foldl_append]
  set st := paths.reverse.foldl resolveRawStep ([], false) with hst
  show (List.foldl resolveRawStep st [cwd]).2 = true
  rw [List.foldl_cons, List.foldl_nil]
  by_cases h : st.2 = true
  · rw [resolveRawStep, if_pos h]; exact h
  · rw [resolveRawStep, if_neg h, if_neg hcwdne]
    exact hcwd

theorem resolve_canon (cwd : Str) (paths : List Str) (hcwd : isAbsolute cwd = true) :
    canonAbs (resolve cwd paths) := by
  have habs := resolveRaw_abs cwd paths hcwd
  refine ⟨normalizeSegs false (splitSlash (resolveRaw cwd paths).1),
    normalizeSegs_good _ (splitSlash_no_slash _), ?_⟩
  rw [resolve]
  simp only [habs, Bool.not_true, if_pos]

theorem joinSlash_cons_cons (s t : Str) (ts : List Str) :
    joinSlash (s :: t :: ts) = s ++ '/' :: joinSlash (t :: ts) := rfl

theorem joinSlash_concat (l : List Str) (x : Str) (hl : l ≠ []) :
    joinSlash (l ++ [x]) = joinSlash l ++ '/' :: x := by
  induction l with
  | nil => exact absurd rfl hl
  | cons s rest ih =>
    cases rest with
    | nil => rfl
    | cons t ts =>
      show joinSlash (s :: t :: (ts ++ [x])) = (s ++ '/' :: joinSlash (t :: ts)) ++ '/' :: x
      rw [joinSlash_cons_cons]
      have hih := ih (by simp)
      rw [show t :: (ts ++ [x]) = (t :: ts) ++ [x] from rfl, hih]
      simp

theorem isEmpty_false_of_ne_nil (x : Str) (hx : x ≠ []) : x.isEmpty = false := by
  cases x with
  | nil => exact absurd rfl hx
  | cons a l => rfl

theorem dropTrailingEmpties_concat (l : List Str) (x : Str) (hx : x ≠ []) :
    dropTrailingEmpties (l ++ [x]) = l ++ [x] := by
  rw [dropTrailingEmpties, List.reverse_append]
  simp only [List.reverse_singleton, List.singleton_append]
  rw [List.dropWhile_cons, isEmpty_false_of_ne_nil x hx]
  simp

theorem splitSlash_canon (segs : List Str) (hg : ∀ s ∈ segs, goodSeg s) (hne : segs ≠ []) :
    splitSlash ('/' :: joinSlash segs) = [] :: segs := by
  rw [splitSlash, splitSlashCore_cons_slash]
  have h := splitSlash_joinSlash segs hne (fun s hs => (hg s hs).2.2.2)
  rw [splitSlash] at h
  rw [h]

theorem joinSlash_ne_nil (segs : List Str) (hne : segs ≠ []) (hg : ∀ s ∈ segs, goodSeg s) :
    joinSlash segs ≠ [] := by
  cases segs with
  | nil => exact absurd rfl hne
  | cons s rest =>
    cases rest with
    | nil => exact (hg s (by simp)).1
    | cons t ts =>
      rw [joinSlash_cons_cons]
      intro h
      exact List.cons_ne_nil '/' _ (List.append_eq_nil.mp h).2

theorem getLast?_ne_slash_append (pre x : Str) (hx : x ≠ []) (hsf : '/' ∉ x) :
    ¬(pre ++ x).getLast? = some '/' := by
  rcases List.eq_nil_or_concat' x with h | ⟨x', c, h⟩
  · exact absurd h hx
  · subst h
    rw [← List.append_assoc, List.getLast?_concat]
    intro hh
    have hc : c = '/' := Option.some.inj hh
    subst hc
    exact hsf (List.mem_append_right x' (by simp))

theorem getLast?_canon_ne_slash (segs : List Str) (hne : segs ≠ []) (hg : ∀ s ∈ segs, goodSeg s) :
    ¬('/' :: joinSlash segs).getLast? = some '/' := by
  rcases List.eq_nil_or_concat' segs with h | ⟨init, x, h⟩
  · exact absurd h hne
  · subst h
    have hx := hg x (by simp)
    cases init with
    | nil =>
      show ¬(['/'] ++ x).getLast? = some '/'
      exact getLast?_ne_slash_append ['/'] x hx.1 hx.2.2.2
    | cons t ts =>
      rw [joinSlash_concat (t :: ts) x (by simp)]
      have heq : ('/' :: (joinSlash (t :: ts) ++ '/' :: x)) =
          (('/' :: joinSlash (t :: ts)) ++ ['/']) ++ x := by simp
      rw [heq]
      exact getLast?_ne_slash_append _ x hx.1 hx.2.2.2

theorem isAbsolute_cons_slash (l : Str) : isAbsolute ('/' :: l) = true := by
  simp [isAbsolute]

theorem normalizePath_canon (segs : List Str) (hne : segs ≠ []) (hg : ∀ s ∈ segs, goodSeg s) :
    normalizePath ('/' :: joinSlash segs) = '/' :: joinSlash segs := by
  have hpne : ¬('/' :: joinSlash segs) = [] := by simp
  have h1 : isAbsolute ('/' :: joinSlash segs) = true := isAbsolute_cons_slash _
  have h2 : splitSlash ('/' :: joinSlash segs) = [] :: segs := splitSlash_canon segs hg hne
  have h3 : normalizeSegs false ([] :: segs) = segs := normalizeSegs_good_cons_empty segs hg
  have h4 : ¬joinSlash segs = [] := joinSlash_ne_nil segs hne hg
  have h5 : ¬('/' :: joinSlash segs).getLast? = some '/' := getLast?_canon_ne_slash segs hne hg
  simp only [normalizePath, hpne, h1, Bool.not_true, h2, h3, h4, h5, if_false, if_true,
    ite_false, ite_true]

theorem normalizePath_slash_slash (x : Str) (hgx : goodSeg x) :
    normalizePath ('/' :: '/' :: x) = '/' :: x := by
  have hpne : ¬('/' :: '/' :: x) = [] := by simp
  have h1 : isAbsolute ('/' :: '/' :: x) = true := isAbsolute_cons_slash _
  have h2 : splitSlash ('/' :: '/' :: x) = [[], [], x] := by
    rw [splitSlash, splitSlashCore_cons_slash, splitSlashCore_cons_slash,
      splitSlashCore_slashfree x hgx.2.2.2 []]
    rfl
  have h3 : normalizeSegs false [[], [], x] = [x] := by
    rw [normalizeSegs, List.foldl_cons, normStep_empty_seg, List.foldl_cons, normStep_empty_seg,
      List.foldl_cons, normStep_push false [] x hgx, List.foldl_nil]
    rfl
  have h4 : ¬joinSlash [x] = [] := hgx.1
  have h5 : ¬('/' :: '/' :: x).getLast? = some '/' := by
    show ¬(['/', '/'] ++ x).getLast? = some '/'
    exact getLast?_ne_slash_append ['/', '/'] x hgx.1 hgx.2.2.2
  simp only [normalizePath, hpne, h1, Bool.not_true, h2, h3, h4, h5, if_false, if_true,
    ite_false, ite_true]
  rfl

theorem basenameOf_canon (init : List Str) (x : Str)
    (hg : ∀ s ∈ init ++ [x], goodSeg s) :
    basenameOf ('/' :: joinSlash (init ++ [x])) = x := by
  rw [basenameOf, splitSlash_canon _ hg (by simp)]
  have hx : x ≠ [] := (hg x (by simp)).1
  rw [show ([] : Str) :: (init ++ [x]) = ([] :: init) ++ [x] from rfl,
    dropTrailingEmpties_concat _ x hx]
  exact List.getLastD_concat _ _ _

theorem dirname_canon (init : List Str) (x : Str)
    (hg : ∀ s ∈ init ++ [x], goodSeg s) :
    dirname ('/' :: joinSlash (init ++ [x])) =
      (if init = [] then ['/'] else '/' :: joinSlash init) := by
  have hx : x ≠ [] := (hg x (by simp)).1
  have h2 : splitSlash ('/' :: joinSlash (init ++ [x])) = [] :: (init ++ [x]) :=
    splitSlash_canon _ hg (by simp)
  rw [dirname, h2]
  rw [show ([] : Str) :: (init ++ [x]) = ([] :: init) ++ [x] from rfl,
    dropTrailingEmpties_concat _ x hx, List.dropLast_concat]
  cases init with
  | nil => rfl
  | cons t ts =>
    have ht := hg t (by simp)
    have hpre1 : ¬([] : Str) :: t :: ts = [] := by simp
    have hpre2 : ¬([] : Str) :: t :: ts = [[]] := by simp
    have hpre3 : ¬([] : Str) :: t :: ts = [[], []] := by
      intro h
      have : t = [] := by
        have := List.cons.inj h
        exact (List.cons.inj this.2).1
      exact ht.1 this
    rw [if_neg hpre1, if_neg hpre2, if_neg hpre3, if_neg (by simp : ¬(t :: ts : List Str) = [])]
    rfl

theorem join_dirname_basename (p : Str) (h : canonAbs p) :
    join [dirname p, basenameOf p] = p := by
  obtain ⟨segs, hg, rfl⟩ := h
  rcases List.eq_nil_or_concat' segs with hs | ⟨init, x, hs⟩
  · subst hs
    decide
  · subst hs
    have hx := hg x (by simp)
    rw [basenameOf_canon init x hg, dirname_canon init x hg]
    cases init with
    | nil =>
      rw [if_pos rfl]
      have hfil : List.filter (fun s => !s.isEmpty) [['/'], x] = [['/'], x] := by
        simp [List.filter, isEmpty_false_of_ne_nil x hx.1]
      rw [join, hfil]
      rw [if_neg (by simp : ¬(List.cons ('/' :: []) [x]) = [])]
      show normalizePath ('/' :: '/' :: x) = _
      rw [normalizePath_slash_slash x hx]
      rfl
    | cons t ts =>
      rw [if_neg (by simp)]
      have hroot_ne : ('/' :: joinSlash (t :: ts)) ≠ [] := by simp
      have hfil : List.filter (fun s => !s.isEmpty) [('/' :: joinSlash (t :: ts)), x] =
          [('/' :: joinSlash (t :: ts)), x] := by
        simp [List.filter, isEmpty_false_of_ne_nil x hx.1]
      rw [join, hfil]
      rw [if_neg (by simp : ¬(List.cons ('/' :: joinSlash (t :: ts)) [x]) = [])]
      have hjoin : joinSlash [('/' :: joinSlash (t :: ts)), x] =
          '/' :: joinSlash ((t :: ts) ++ [x]) := by
        rw [joinSlash_cons_cons]
        rw [joinSlash_concat (t :: ts) x (by simp)]
        rfl
      rw [hjoin, normalizePath_canon ((t :: ts) ++ [x]) (by simp) hg]

theorem splitSlashCore_length (p : Str) :
    ∀ cur, ∀ t ∈ splitSlashCore p cur, t.length ≤ cur.length + p.length := by
  induction p with
  | nil =>
    intro cur t ht
    rw [splitSlashCore_nil, List.mem_singleton] at ht
    subst ht; simp
  | cons c rest ih =>
    intro cur t ht
    by_cases hc : c = '/'
    · subst hc
      rw [splitSlashCore_cons_slash, List.mem_cons] at ht
      rcases ht with h1 | h2
      · subst h1; simp
      · have := ih [] t h2
        simp at this ⊢
        omega
    · rw [splitSlashCore_cons_ne c rest cur hc] at ht
      have := ih (cur ++ [c]) t ht
      simp at this ⊢
      omega

theorem mem_dropTrailingEmpties (l : List Str) (t : Str) (h : t ∈ dropTrailingEmpties l) :
    t ∈ l := by
  rw [dropTrailingEmpties, List.mem_reverse] at h
  exact List.mem_reverse.mp ((List.dropWhile_sublist _).subset h)

theorem getLastD_cases (l : List Str) : ∀ d, l.getLastD d = d ∨ l.getLastD d ∈ l := by
  induction l with
  | nil => intro d; left; rfl
  | cons a l ih =>
    intro d
    rw [List.getLastD_cons]
    rcases ih a with h | h
    · right; rw [h]; simp
    · right; exact List.mem_cons_of_mem a h

theorem basenameOf_length_le (p : Str) : (basenameOf p).length ≤ p.length := by
  rw [basenameOf]
  rcases getLastD_cases (dropTrailingEmpties (splitSlash p)) [] with h | h
  · rw [h]; simp
  · have hmem := mem_dropTrailingEmpties _ _ h
    have := splitSlashCore_length p [] _ hmem
    simpa using this

theorem lastDotIdx_lt (s : Str) : ∀ d, lastDotIdx s = some d → d < s.length := by
  induction s with
  | nil => intro d h; simp [lastDotIdx] at h
  | cons c rest ih =>
    intro d h
    cases hr : lastDotIdx rest with
    | some e =>
      simp only [lastDotIdx, hr] at h
      have := ih e hr
      have hd : d = e + 1 := (Option.some.inj h).symm
      subst hd
      simp only [List.length_cons]
      omega
    | none =>
      simp only [lastDotIdx, hr] at h
      by_cases hc : c = '.'
      · rw [if_pos hc] at h
        have hd : d = 0 := (Option.some.inj h).symm
        subst hd
        simp
      · rw [if_neg hc] at h
        exact absurd h (by simp)

theorem basenameSuf_strip (p ext : Str) (h1 : ext ≠ []) (h2 : ext ≠ p)
    (h3 : ¬basenameOf p = ext) (h4 : ext.isSuffixOf (basenameOf p) = true) :
    basenameSuf p ext = (basenameOf p).take ((basenameOf p).length - ext.length) := by
  rw [basenameSuf, if_neg h1, if_neg h2]
  simp only [if_neg h3, h4, if_true]

/-- The extension slicing of the constructor never loses characters: the final
segment is always the name concatenated with the extension (src/index.ts lines
134-136 against node:path basename/extname). -/
theorem fullname_eq_name_ext (p : Str) :
    basenameSuf p (extname p) ++ extname p = basenameOf p := by
  by_cases hb2 : basenameOf p = ['.', '.']
  · have he : extname p = [] := by rw [extname, hb2]; rfl
    rw [he, basenameSuf, if_pos rfl, List.append_nil]
  · cases hld : lastDotIdx (basenameOf p) with
    | none =>
      have he : extname p = [] := by
        rw [extname, extOfSeg, if_neg hb2, hld]
      rw [he, basenameSuf, if_pos rfl, List.append_nil]
    | some d =>
      cases d with
      | zero =>
        have he : extname p = [] := by
          rw [extname, extOfSeg, if_neg hb2, hld]
        rw [he, basenameSuf, if_pos rfl, List.append_nil]
      | succ e =>
        have he : extname p = (basenameOf p).drop (e + 1) := by
          rw [extname, extOfSeg, if_neg hb2, hld]
          rfl
        have hdlt : e + 1 < (basenameOf p).length := lastDotIdx_lt (basenameOf p) (e + 1) hld
        have hlen_ext : ((basenameOf p).drop (e + 1)).length = (basenameOf p).length - (e + 1) :=
          List.length_drop _ _
        have hext_ne : (basenameOf p).drop (e + 1) ≠ [] := by
          intro hh
          have := List.drop_eq_nil_iff.mp hh
          omega
        have hext_ne_p : (basenameOf p).drop (e + 1) ≠ p := by
          intro hh
          have hlt : ((basenameOf p).drop (e + 1)).length < (basenameOf p).length := by
            rw [hlen_ext]; omega
          have hle : (basenameOf p).length ≤ p.length := basenameOf_length_le p
          rw [hh] at hlt
          omega
        have hb_ne_ext : ¬basenameOf p = (basenameOf p).drop (e + 1) := by
          intro hh
          have : (basenameOf p).length = ((basenameOf p).drop (e + 1)).length := by
            rw [← hh]
          rw [hlen_ext] at this
          omega
        have hsuf : ((basenameOf p).drop (e + 1)).isSuffixOf (basenameOf p) = true :=
          List.isSuffixOf_iff_suffix.mpr ⟨(basenameOf p).take (e + 1), List.take_append_drop _ _⟩
        rw [he, basenameSuf_strip p _ hext_ne hext_ne_p hb_ne_ext hsuf]
        rw [hlen_ext]
        have harith : (basenameOf p).length - ((basenameOf p).length - (e + 1)) = e + 1 := by
          omega
        rw [harith, List.take_append_drop]

theorem except_bind_ok {α β : Type} (a : α) (f : α → Except Err β) :
    (Except.ok a : Except Err α) >>= f = f a := rfl

theorem except_bind_error {α β : Type} (e : Err) (f : α → Except Err β) :
    (Except.error e : Except Err α) >>= f = Except.error e := rfl

theorem except_map_ok {α β : Type} (a : α) (f : α → β) :
    f <$> (Except.ok a : Except Err α) = Except.ok (f a) := rfl

theorem except_map_error {α β : Type} (e : Err) (f : α → β) :
    f <$> (Except.error e : Except Err α) = Except.error e := rfl

/-- C1: classification of a non-existent path. When the handle path does not
exist, lenient classify answers by the extension heuristic (nonempty ext means
file, empty ext means directory), while strict classify fails with a
NotFound-class PathJSError instead of falling back. -/
theorem nonexistent_classification (fs : FS) (p : Path)
    (h : fs.existsSync p.path = false) :
    (p.ext ≠ [] → Path.type fs p = PathTypeValues.file) ∧
    (p.ext = [] → Path.type fs p = PathTypeValues.directory) ∧
    Path.strictType fs p = .error (.pathJS (.notFound p.path ("type").toList)) ∧
    (Err.pathJS (.notFound p.path ("type").toList)).isNotFound = true := by
  have hA : Path.typeAttempt fs p = .error (.pathJS (.notFound p.path ("type").toList)) := by
    simp [Path.typeAttempt, Path.checkExistence, Path.existsE, h, except_bind_error]
  refine ⟨?_, ?_, ?_, rfl⟩
  · intro hx; simp [Path.type, hA, hx]
  · intro hx; simp [Path.type, hA, hx]
  · simp [Path.strictType, Path.checkExistence, Path.existsE, h, except_bind_error]

/-- C1 witness: the non-existent /w/a.txt classifies as a file leniently and
strict classify fails with NotFound. -/
theorem nonexistent_classification_witness :
    Path.type emptyFS pTxt = PathTypeValues.file ∧
    Path.strictType emptyFS pTxt =
      .error (.pathJS (.notFound pTxt.path ("type").toList)) := by
  have h := nonexistent_classification emptyFS pTxt (by decide)
  exact ⟨h.1 (by decide), h.2.2.1⟩

/-- C2: derived-field invariants at construction. For every fragment sequence
the constructor accepts (under an absolute working directory), the resulting
handle satisfies path = join(root, fullname) and fullname = name ++ ext. -/
theorem constructor_invariants (cwd : Str) (frags : List Frag) (hnd : Path)
    (hok : pathConstructor cwd frags = .ok hnd) (hcwd : isAbsolute cwd = true) :
    hnd.path = join [hnd.root, hnd.fullname] ∧ hnd.fullname = hnd.name ++ hnd.ext := by
  cases hc : collectPaths frags false 0 with
  | error e =>
    simp only [pathConstructor, hc] at hok
    simp at hok
  | ok l =>
    simp only [pathConstructor, hc] at hok
    have hh : hnd = mkPathFields (resolve cwd l) := (Except.ok.inj hok).symm
    subst hh
    simp only [mkPathFields]
    exact ⟨(join_dirname_basename _ (resolve_canon cwd l hcwd)).symm,
      (fullname_eq_name_ext _).symm⟩

/-- C2 witness: the invariants evaluated on the handle for "a.txt". -/
theorem constructor_invariants_witness :
    pTxt.path = join [pTxt.root, pTxt.fullname] ∧ pTxt.fullname = pTxt.name ++ pTxt.ext :=
  constructor_invariants cwdW [Frag.str ("a.txt").toList] pTxt rfl (by decide)

theorem collectPaths_ok_of_all_str (rest : List Frag) :
    ∀ hpc idx, (∀ f ∈ rest, f.isHandle = false) → ∃ l, collectPaths rest hpc idx = .ok l := by
  induction rest with
  | nil => intro hpc idx _; exact ⟨[], rfl⟩
  | cons f rest ih =>
    intro hpc idx hall
    cases f with
    | handle h =>
      exact absurd (hall (Frag.handle h) (List.mem_cons_self _ _)) (by simp [Frag.isHandle])
    | str s =>
      obtain ⟨l, hl⟩ := ih hpc (idx + 1) (fun x hx => hall x (List.mem_cons_of_mem _ hx))
      exact ⟨s :: l, by simp [collectPaths, hl]⟩

theorem collectPaths_error_of_handle (rest : List Frag) :
    ∀ hpc idx, (hpc = true ∨ idx ≠ 0) → rest.any Frag.isHandle = true →
      ∃ e, collectPaths rest hpc idx = .error e ∧ e.isInvalidArgument = true := by
  induction rest with
  | nil => intro hpc idx _ hany; simp at hany
  | cons f rest ih =>
    intro hpc idx hcond hany
    cases f with
    | handle h =>
      by_cases hb : hpc = true
      · exact ⟨.pathJS .twoHandles, by simp [collectPaths, hb], rfl⟩
      · have hb' : hpc = false := by simpa using hb
        have hidx : idx ≠ 0 := hcond.resolve_left hb
        exact ⟨.pathJS .handleNotFirst, by simp [collectPaths, hb', hidx], rfl⟩
    | str s =>
      have hany' : rest.any Frag.isHandle = true := by
        simpa [Frag.isHandle] using hany
      obtain ⟨e, he, hinv⟩ := ih hpc (idx + 1) (Or.inr (by omega)) hany'
      exact ⟨e, by simp [collectPaths, he], hinv⟩

/-- C3: constructor argument validation. A handle fragment anywhere after the
first position (which covers both a second handle and a misplaced one) makes
construction fail with an InvalidArgument-class PathJSError; with no handle
fragment outside the first position construction succeeds. -/
theorem constructor_validation (cwd : Str) (frags : List Frag) :
    ((∃ f ∈ frags.tail, f.isHandle = true) →
      ∃ e, pathConstructor cwd frags = .error e ∧ e.isInvalidArgument = true) ∧
    ((∀ f ∈ frags.tail, f.isHandle = false) →
      ∃ hnd, pathConstructor cwd frags = .ok hnd) := by
  constructor
  · rintro ⟨f, hf, hh⟩
    cases frags with
    | nil => simp at hf
    | cons g rest =>
      have hrest : rest.any Frag.isHandle = true := List.any_eq_true.mpr ⟨f, hf, hh⟩
      cases g with
      | handle h0 =>
        obtain ⟨e, he, hinv⟩ := collectPaths_error_of_handle rest true 1 (Or.inl rfl) hrest
        exact ⟨e, by simp [pathConstructor, collectPaths, he], hinv⟩
      | str s =>
        obtain ⟨e, he, hinv⟩ := collectPaths_error_of_handle rest false 1 (Or.inr (by omega)) hrest
        exact ⟨e, by simp [pathConstructor, collectPaths, he], hinv⟩
  · intro hall
    cases frags with
    | nil => exact ⟨mkPathFields (resolve cwd []), rfl⟩
    | cons g rest =>
      cases g with
      | handle h0 =>
        obtain ⟨l, hl⟩ := collectPaths_ok_of_all_str rest true 1 hall
        exact ⟨mkPathFields (resolve cwd (h0.path :: l)),
          by simp [pathConstructor, collectPaths, hl]⟩
      | str s =>
        obtain ⟨l, hl⟩ := collectPaths_ok_of_all_str rest false 1 hall
        exact ⟨mkPathFields (resolve cwd (s :: l)),
          by simp [pathConstructor, collectPaths, hl]⟩

/-- C3 witness: a handle fragment in second position fails with an
InvalidArgument-class error, and a handle fragment first succeeds. -/
theorem constructor_validation_witness :
    (∃ e, pathConstructor cwdW [Frag.str ("a").toList, Frag.handle pTxt] = .error e ∧
      e.isInvalidArgument = true) ∧
    (∃ hnd, pathConstructor cwdW [Frag.handle pTxt, Frag.str ("b").toList] = .ok hnd) := by
  constructor
  · exact (constructor_validation cwdW _).1 ⟨Frag.handle pTxt, by simp, rfl⟩
  · refine (constructor_validation cwdW _).2 ?_
    intro f hf
    simp at hf
    subst hf
    rfl

/-- C4: rename atomicity on destination conflict. For a source that is an
existing regular file, when the resolved destination (absolute kept, relative
resolved from the directory of the source path) exists, renameFile fails with
an AlreadyExists-class PathJSError and the filesystem is left unchanged. -/
theorem renameFile_dest_exists (fs : FS) (cwd : Str) (p : Path) (newPath : Str) (en : Entry)
    (hsrc : fs.entries p.path = some en) (hkind : en.kind = EntryKind.file)
    (hsf : fs.statFail p.path = false)
    (hdst : fs.existsSync (renameDest cwd p newPath).path = true) :
    Path.renameFile fs cwd p newPath =
      (.error (.pathJS (.alreadyExists (renameDest cwd p newPath).path)), fs) ∧
    (Err.pathJS (.alreadyExists (renameDest cwd p newPath).path)).isAlreadyExists = true := by
  have hex : fs.existsSync p.path = true := by
    simp [FS.existsSync, hsrc]
  have hls : fs.lstat p.path = .ok en := by
    simp [FS.lstat, hsf, hsrc]
  refine ⟨?_, rfl⟩
  simp [Path.renameFile, Path.checkExistence, Path.existsE, hex, Path.checkAsFile, hls,
    hkind, hdst, except_bind_ok, except_bind_error]

/-- C4 witness: renaming /w/a.txt onto the existing /w/b.txt fails with
AlreadyExists and leaves the filesystem untouched. -/
theorem renameFile_dest_exists_witness :
    Path.renameFile fileFS cwdW pTxt ("b.txt").toList =
      (.error (.pathJS (.alreadyExists (renameDest cwdW pTxt (("b.txt").toList)).path)), fileFS) :=
  (renameFile_dest_exists fileFS cwdW pTxt (("b.txt").toList)
    ⟨EntryKind.file, [10, 20, 30, 40, 50]⟩ (by decide) rfl rfl (by decide)).1

/-- C5 counterexample: a constructor-built handle whose path does not exist
and whose ext is empty classifies as a directory under the lenient heuristic,
so checkThenDeleteFile raises a WrongType-class error rather than no-op
succeeding. -/
theorem checkThenDelete_nonexistent_fails :
    pathConstructor cwdW [Frag.str ("a").toList] = .ok pNoExt ∧
    emptyFS.existsSync pNoExt.path = false ∧
    Path.checkThenDeleteFile emptyFS pNoExt =
      (.error (.pathJS (.wrongTypeOp pNoExt.path ("checkThenDeleteFile").toList)), emptyFS) :=
  ⟨rfl, rfl, rfl⟩

/-- C5 amended: checkThenDeleteFile fails with a WrongType-class error exactly
when the receiver leniently classifies as a directory (which includes every
non-existent path with empty ext); when it classifies as a file and the path
is absent it is a no-op success; when an existing regular file is present it
deletes it. -/
theorem checkThenDelete_amended (fs : FS) (p : Path) :
    (Path.type fs p = PathTypeValues.directory →
      Path.checkThenDeleteFile fs p =
        (.error (.pathJS (.wrongTypeOp p.path ("checkThenDeleteFile").toList)), fs)) ∧
    (Path.type fs p = PathTypeValues.file → fs.existsSync p.path = false →
      Path.checkThenDeleteFile fs p = (.ok (), fs)) ∧
    (∀ en, fs.entries p.path = some en → en.kind = EntryKind.file →
      fs.statFail p.path = false →
      Path.checkThenDeleteFile fs p = (.ok (), fs.unlink p.path)) := by
  refine ⟨?_, ?_, ?_⟩
  · intro h
    simp [Path.checkThenDeleteFile, Path.isDirPath, h]
  · intro h hex
    simp [Path.checkThenDeleteFile, Path.isDirPath, h, Path.existsE, hex]
  · intro en hent hkind hsf
    have hex : fs.existsSync p.path = true := by
      simp [FS.existsSync, hent]
    have hls : fs.lstat p.path = .ok en := by
      simp [FS.lstat, hsf, hent]
    have htype : Path.type fs p = PathTypeValues.file := by
      simp [Path.type, Path.typeAttempt, Path.checkExistence, Path.existsE, hex, hls, hkind,
        except_bind_ok, except_map_ok]
    simp [Path.checkThenDeleteFile, Path.isDirPath, htype, Path.existsE, hex,
      Path.deleteFile, Path.checkExistence, Path.checkAsFile, hls, hkind,
      except_bind_ok, except_bind_error]

/-- C5 witness: on a non-existent path with nonempty ext the operation is a
no-op success. -/
theorem checkThenDelete_amended_witness :
    Path.checkThenDeleteFile emptyFS pTxt = (.ok (), emptyFS) :=
  (checkThenDelete_amended emptyFS pTxt).2.1 rfl rfl

/-- C6: evaluation of the code at the failing input. readFileOffset performs
only the checkAsFile guard, so on a non-existent path it surfaces the raw
lstat system error (not a PathJSError), while openFile on the same handle
does raise the NotFound-class PathJSError the open-handle contract promises. -/
theorem readFileOffset_missing_not_notFound :
    Path.readFileOffset emptyFS pTxt 0 none = .error (.sys .enoent) ∧
    (Err.sys SysErr.enoent).isPathJSErr = false ∧
    Path.openFile emptyFS pTxt = .error (.pathJS (.notFound pTxt.path ("openFile").toList)) :=
  ⟨rfl, rfl, rfl⟩

/-- C7 counterexample: writeFile on a receiver whose path is an existing
directory does fail a type check: the internal deleteFile raises a
WrongType-class (NotFile) PathJSError. -/
theorem writeFile_on_directory_fails :
    dirFS.existsSync pDir.path = true ∧
    Path.writeFile dirFS pDir [1, 2] =
      (.error (.pathJS (.notFile pDir.path ("deleteFile").toList)), dirFS) ∧
    (Err.pathJS (.notFile pDir.path ("deleteFile").toList)).isWrongType = true :=
  ⟨rfl, rfl, rfl⟩

/-- C7 amended: writeFile has no existence precondition: on an absent target
it writes directly, and on an existing regular file it deletes then rewrites,
returning the resolved path; but when the target exists and is not a regular
file the internal deleteFile fails with a NotFile (WrongType-class) error. -/
theorem writeFile_amended (fs : FS) (p : Path) (data : List Nat) :
    (fs.existsSync p.path = false →
      Path.writeFile fs p data = (.ok p.path, fs.writeEntry p.path data)) ∧
    (∀ en, fs.entries p.path = some en → en.kind = EntryKind.file →
      fs.statFail p.path = false →
      Path.writeFile fs p data = (.ok p.path, (fs.unlink p.path).writeEntry p.path data)) ∧
    (∀ en, fs.entries p.path = some en → en.kind ≠ EntryKind.file →
      fs.statFail p.path = false →
      Path.writeFile fs p data =
        (.error (.pathJS (.notFile p.path ("deleteFile").toList)), fs)) := by
  refine ⟨?_, ?_, ?_⟩
  · intro hex
    simp [Path.writeFile, Path.existsE, hex]
  · intro en hent hkind hsf
    have hex : fs.existsSync p.path = true := by
      simp [FS.existsSync, hent]
    have hls : fs.lstat p.path = .ok en := by
      simp [FS.lstat, hsf, hent]
    simp [Path.writeFile, Path.existsE, hex, Path.deleteFile, Path.checkExistence,
      Path.checkAsFile, hls, hkind, except_bind_ok, except_bind_error]
  · intro en hent hkind hsf
    have hex : fs.existsSync p.path = true := by
      simp [FS.existsSync, hent]
    have hls : fs.lstat p.path = .ok en := by
      simp [FS.lstat, hsf, hent]
    simp [Path.writeFile, Path.existsE, hex, Path.deleteFile, Path.checkExistence,
      Path.checkAsFile, hls, hkind, except_bind_ok, except_bind_error]

/-- C7 witness: writing to the absent /w/a.txt succeeds and creates the file. -/
theorem writeFile_amended_witness :
    Path.writeFile emptyFS pTxt [7] = (.ok pTxt.path, emptyFS.writeEntry pTxt.path [7]) :=
  (writeFile_amended emptyFS pTxt [7]).1 rfl

/-- C8: changeFileExt fails with a WrongType-class PathJSError on a
directory-classified receiver; on a file-classified receiver it returns
root/name.ext where a new extension given with a leading dot separator
produces the same result as the bare extension. -/
theorem changeFileExt_contract (fs : FS) (cwd : Str) (p : Path) (bare : Str)
    (hbare : bare.head? ≠ some '.') :
    (Path.type fs p = PathTypeValues.directory →
      ∀ e0, Path.changeFileExt fs cwd p e0 =
        .error (.pathJS (.wrongTypeOp p.path ("changeFileName").toList))) ∧
    (Path.type fs p = PathTypeValues.file →
      Path.changeFileExt fs cwd p ('.' :: bare) =
          .ok (resolve cwd [p.root, p.name ++ '.' :: bare]) ∧
      Path.changeFileExt fs cwd p bare =
          .ok (resolve cwd [p.root, p.name ++ '.' :: bare])) ∧
    (Err.pathJS (.wrongTypeOp p.path ("changeFileName").toList)).isWrongType = true := by
  refine ⟨?_, ?_, rfl⟩
  · intro h e0
    simp [Path.changeFileExt, Path.isDirPath, h]
  · intro h
    have hdir : Path.isDirPath fs p = false := by
      simp [Path.isDirPath, h]
    constructor
    · simp [Path.changeFileExt, hdir]
    · simp [Path.changeFileExt, hdir]
      cases bare with
      | nil => rfl
      | cons c cs =>
        have hc : ¬c = '.' := by
          intro hcc
          subst hcc
          simp at hbare
        simp [hc]

/-- C8 witness: changing the extension of /w/a.txt to md, with and without the
leading dot, gives the same root/name.md result. -/
theorem changeFileExt_contract_witness :
    Path.changeFileExt emptyFS cwdW pTxt ('.' :: ("md").toList) =
        .ok (resolve cwdW [pTxt.root, pTxt.name ++ '.' :: ("md").toList]) ∧
    Path.changeFileExt emptyFS cwdW pTxt ("md").toList =
        .ok (resolve cwdW [pTxt.root, pTxt.name ++ '.' :: ("md").toList]) :=
  (changeFileExt_contract emptyFS cwdW pTxt (("md").toList) (by decide)).2.1 rfl

/-- C9: totality of the lenient classifier. type() always answers file or
directory, and whenever its internal attempt fails for any reason (including
a stat failure on an existing path), the answer is the extension heuristic. -/
theorem type_total_and_catch (fs : FS) (p : Path) :
    (Path.type fs p = PathTypeValues.file ∨ Path.type fs p = PathTypeValues.directory) ∧
    (∀ e, Path.typeAttempt fs p = .error e →
      Path.type fs p = (if p.ext = [] then PathTypeValues.directory else PathTypeValues.file)) := by
  constructor
  · cases ht : Path.type fs p with
    | file => left; rfl
    | directory => right; rfl
  · intro e he
    by_cases hx : p.ext = []
    · simp [Path.type, he, hx]
    · simp [Path.type, he, hx]

/-- C9 witness: /w/a.txt exists but stat fails on it, the attempt errors with
a system error, and type() still answers by the heuristic. -/
theorem type_total_and_catch_witness :
    Path.typeAttempt permFS pTxt = .error (.sys .eperm) ∧
    Path.type permFS pTxt = PathTypeValues.file := by
  have h := (type_total_and_catch permFS pTxt).2 (Err.sys SysErr.eperm) rfl
  refine ⟨rfl, ?_⟩
  simpa using h

/-- C10: classification of existing non-regular entries. Any existing entry
that is not a regular file (directory, symbolic link reported by the
non-following lstat, or other special entry) is classified as directory by
both the lenient and the strict classifier. -/
theorem nonfile_classified_directory (fs : FS) (p : Path) (en : Entry)
    (hent : fs.entries p.path = some en) (hsf : fs.statFail p.path = false)
    (hk : en.kind ≠ EntryKind.file) :
    Path.type fs p = PathTypeValues.directory ∧
    Path.strictType fs p = .ok PathTypeValues.directory := by
  have hex : Path.existsE fs p = true := by
    simp [Path.existsE, FS.existsSync, hent]
  have hls : fs.lstat p.path = .ok en := by
    simp [FS.lstat, hsf, hent]
  constructor
  · simp [Path.type, Path.typeAttempt, Path.checkExistence, hex, hls, hk,
      except_bind_ok, except_map_ok]
  · simp [Path.strictType, Path.checkExistence, hex, hls, hk,
      except_bind_ok, except_map_ok]

/-- C10 witness: a symbolic link entry at /w/a.txt classifies as directory
under both classifiers. -/
theorem nonfile_classified_directory_witness :
    Path.type symFS pTxt = PathTypeValues.directory ∧
    Path.strictType symFS pTxt = .ok PathTypeValues.directory :=
  nonfile_classified_directory symFS pTxt ⟨EntryKind.symlink, []⟩ (by decide) (by decide)
    (by decide)

end PathJS
